import Mathlib

/-!
Shallow embedding of the text-parsing and aggregation core of the
`gitcontrib` repository (`gitcontrib.go`, `cmd.go`).

Modelling conventions:
* A line of text is a `List Char`; a whole text is a `String` which is
  first split into lines exactly as Go's `bufio.Scanner` with `ScanLines`
  does (split on newline, drop the final empty fragment produced by a
  trailing newline, strip a trailing carriage return from each line).
* Go functions returning `(T, error)` are embedded as `GoResult T` with
  constructor `ok` for the normal return, `err` for a non-nil error, and
  `crash` for a runtime panic (out-of-range index or slice).
* Go maps are embedded as association lists with first-match lookup and
  replace-first insert; Go map indexing with a missing key yields the
  zero value, embedded with `Option.getD`.
* `unicode.IsSpace` is restricted to the ASCII whitespace characters,
  and the machine `int` is embedded as `Int` with the 64-bit range check
  that `strconv.Atoi` performs.
* The `float64` ratio arithmetic of the report composer is idealised as
  exact rational arithmetic (`ℚ`); division by zero yields `0` in this
  idealisation where `float64` would give `±Inf`/`NaN`.
-/

namespace Gitcontrib

/-- A single line of text, as a list of characters. -/
abbrev Line := List Char

/-- Result of running an embedded Go function: a normal return, a non-nil
`error` return, or a runtime panic. -/
inductive GoResult (α : Type) where
  | ok (a : α)
  | err
  | crash
deriving DecidableEq, Repr

/-- ASCII fragment of Go's `unicode.IsSpace`, the separator predicate used
by `strings.Fields` and `strings.TrimSpace`. -/
def isSpace (c : Char) : Bool :=
  c = ' ' || c = '\t' || c = '\n' || c.toNat = 11 || c.toNat = 12 || c = '\r'

/-- Go's `strings.TrimSpace`: drop leading and trailing whitespace. -/
def trimCh (l : Line) : Line :=
  ((l.dropWhile isSpace).reverse.dropWhile isSpace).reverse

/-- Fuel-driven worker for `fieldsCh`; the fuel is an upper bound on the
number of characters still to be consumed, so `fieldsCh` supplies the
length of the line. -/
def fieldsAux : Nat → Line → List Line
  | 0, _ => []
  | _, [] => []
  | fuel + 1, c :: cs =>
    if isSpace c then fieldsAux fuel cs
    else (c :: cs.takeWhile (fun d => !isSpace d)) :: fieldsAux fuel (cs.dropWhile (fun d => !isSpace d))

/-- Go's `strings.Fields`: maximal runs of non-whitespace characters. -/
def fieldsCh (l : Line) : List Line := fieldsAux l.length l

/-- Value of a decimal digit character. -/
def digitVal (c : Char) : Nat := c.toNat - 48

/-- Is `c` one of '0'..'9'. -/
def isDigitCh (c : Char) : Bool := '0' ≤ c && c ≤ '9'

/-- Value of a nonempty all-digit string, `none` otherwise. -/
def digitsVal (l : Line) : Option Nat :=
  if l.isEmpty || l.any (fun c => !isDigitCh c) then none
  else some (l.foldl (fun acc c => 10 * acc + digitVal c) 0)

/-- Largest value of Go's 64-bit `int`. -/
def int64Max : Int := 2 ^ 63 - 1

/-- Go's `strconv.Atoi`: optional sign, at least one digit, nothing else,
value within the 64-bit signed range. -/
def atoiCh : Line → Option Int
  | [] => none
  | '+' :: ds => (digitsVal ds).bind (fun n => if (n : Int) ≤ int64Max then some (n : Int) else none)
  | '-' :: ds => (digitsVal ds).bind (fun n => if (n : Int) ≤ 2 ^ 63 then some (-(n : Int)) else none)
  | ds => (digitsVal ds).bind (fun n => if (n : Int) ≤ int64Max then some (n : Int) else none)

/-- Split a character list at each newline; like `String.splitOn "\n"`,
the result always has one more fragment than there are newlines. -/
def splitNL : List Char → List Line
  | [] => [[]]
  | c :: cs =>
    if c = '\n' then [] :: splitNL cs
    else
      match splitNL cs with
      | [] => [[c]]
      | l :: ls => (c :: l) :: ls

/-- `bufio.ScanLines` strips one trailing carriage return from each line. -/
def dropCR (l : Line) : Line := if l.getLast? = some '\r' then l.dropLast else l

/-- The sequence of lines produced by `bufio.Scanner` over a string: split
on newlines, drop the empty fragment a trailing newline leaves behind
(`Scan` returns false at end of input), and strip trailing `\r`. -/
def toLines (s : List Char) : List Line :=
  match s with
  | [] => []
  | _ =>
    (if (splitNL s).getLast? = some [] then (splitNL s).dropLast else splitNL s).map dropCR

/-- Go's `strings.Join` with a single-space separator. -/
def joinSp (ls : List Line) : Line := List.intercalate [' '] ls

/-- Replace-first insert on an association list; embeds Go map assignment
`m[k] = v`. -/
def mapInsert {α : Type} : List (Line × α) → Line → α → List (Line × α)
  | [], k, v => [(k, v)]
  | (k', v') :: m, k, v =>
    if k' = k then (k, v) :: m else (k', v') :: mapInsert m k v

/-- First-match lookup on an association list; embeds Go's two-valued map
read `v, ok := m[k]`. -/
def mapLookup {α : Type} : List (Line × α) → Line → Option α
  | [], _ => none
  | (k', v') :: m, k => if k' = k then some v' else mapLookup m k

/-! ### Branch extractor (`extractCheckedOutBranch`) -/

/-- Line-list worker for `extractCheckedOutBranch`: scan for the first
line matching the regexp `^\* *` (equivalently, starting with `*`) and
take `strings.Fields(line)[1]`, panicking when that index is absent; when
no line matches, the loop falls through and the zero-valued `branch`
(the empty string) is returned with a nil error. -/
def extractCheckedOutBranchGo : List Line → GoResult Line
  | [] => .ok []
  | l :: ls =>
    if l.head? = some '*' then
      match fieldsCh l with
      | _ :: b :: _ => .ok b
      | _ => .crash
    else extractCheckedOutBranchGo ls

/-- `extractCheckedOutBranch` from `gitcontrib.go`. -/
def extractCheckedOutBranch (s : String) : GoResult Line :=
  extractCheckedOutBranchGo (toLines s.toList)

/-! ### Commit aggregator (`mapAuthorCommits`) -/

/-- Line-list worker for `mapAuthorCommits`: per line, trim, split into
fields, parse `fields[0]` as an integer (panicking when the line has no
fields at all, erroring when the first field is not a number) and assign
`strings.Join(fields[1:], " ")` to that count in the map. -/
def mapAuthorCommitsGo : List Line → List (Line × Int) → GoResult (List (Line × Int))
  | [], m => .ok m
  | l :: ls, m =>
    match fieldsCh (trimCh l) with
    | [] => .crash
    | f0 :: rest =>
      match atoiCh f0 with
      | none => .err
      | some n => mapAuthorCommitsGo ls (mapInsert m (joinSp rest) n)

/-- `mapAuthorCommits` from `gitcontrib.go`. -/
def mapAuthorCommits (s : String) : GoResult (List (Line × Int)) :=
  mapAuthorCommitsGo (toLines s.toList) []

/-! ### Line-change aggregator (`parseLineChanges`) -/

/-- The `LineChanges` record of `gitcontrib.go`. -/
structure LineChanges where
  Additions : Int
  Deletions : Int
deriving DecidableEq, Repr

/-- The `Sum` method of `LineChanges`. -/
def LineChanges.Sum (lc : LineChanges) : Int := lc.Additions + lc.Deletions

/-- The regexp `^[a-zA-Z']` of `parseLineChanges`: does the line start
with an ASCII letter or an apostrophe. -/
def authorStart (l : Line) : Bool :=
  match l with
  | [] => false
  | c :: _ => ('a' ≤ c && c ≤ 'z') || ('A' ≤ c && c ≤ 'Z') || c = '\''

/-- The quote-stripping step of the author-header branch: when the line
both starts and ends with a single quote, Go slices `line[:len(line)-1]`
and then `line[1:]`; on the one-character line `'` the second slice is
`""[1:]`, which panics. -/
def stripQuotes (l : Line) : GoResult Line :=
  if l.head? = some '\'' && l.getLast? = some '\'' then
    match l.dropLast with
    | [] => .crash
    | _ :: _ => .ok (l.dropLast.drop 1)
  else .ok l

/-- The author-initialisation step: `if _, ok := m[a]; !ok` insert a zero
accumulator — idempotent, an existing accumulator is never reset. -/
def registerAuthor (m : List (Line × LineChanges)) (a : Line) : List (Line × LineChanges) :=
  if (mapLookup m a).isNone then mapInsert m a ⟨0, 0⟩ else m

/-- The change-record step of `parseLineChanges`: split the (trimmed,
nonblank) line into fields; `fields[0]` is additions and `fields[1]`
deletions, a literal `-` counting as zero and a non-numeric field being a
hard error; absent indices panic, with `fields[1]` only being read after
the additions block has not errored. The counts are added to the current
author's accumulator, Go map indexing defaulting to the zero value. -/
def changeStep (line ca : Line) (m : List (Line × LineChanges)) :
    GoResult (List (Line × LineChanges)) :=
  match fieldsCh line with
  | [] => .crash
  | [f0] => if f0 ≠ ['-'] ∧ atoiCh f0 = none then .err else .crash
  | f0 :: f1 :: _ =>
    match (if f0 = ['-'] then some 0 else atoiCh f0) with
    | none => .err
    | some adds =>
      match (if f1 = ['-'] then some 0 else atoiCh f1) with
      | none => .err
      | some dels =>
        .ok (mapInsert m ca
          ⟨((mapLookup m ca).getD ⟨0, 0⟩).Additions + adds,
           ((mapLookup m ca).getD ⟨0, 0⟩).Deletions + dels⟩)

/-- Line-list worker for `parseLineChanges`: skip blank lines; a line
matching `^[a-zA-Z']` is an author header (quote-stripped, made current,
zero-initialised only when new); any other nonblank line is a change
record processed by `changeStep`. -/
def parseLineChangesGo :
    List Line → Line → List (Line × LineChanges) → GoResult (List (Line × LineChanges))
  | [], _, m => .ok m
  | raw :: ls, ca, m =>
    if trimCh raw = [] then parseLineChangesGo ls ca m
    else if authorStart (trimCh raw) then
      match stripQuotes (trimCh raw) with
      | .ok a => parseLineChangesGo ls a (registerAuthor m a)
      | .err => .err
      | .crash => .crash
    else
      match changeStep (trimCh raw) ca m with
      | .ok m' => parseLineChangesGo ls ca m'
      | .err => .err
      | .crash => .crash

/-- `parseLineChanges` from `gitcontrib.go`: the current author starts as
the empty string and the map starts empty. -/
def parseLineChanges (s : String) : GoResult (List (Line × LineChanges)) :=
  parseLineChangesGo (toLines s.toList) [] []

/-! ### Report composer (`ContributionSummaryCmd` / `CsvContributionSummaryCmd`) -/

/-- `commitTotal`: the sum of all commit counts in the commit map. -/
def commitTotal (cm : List (Line × Int)) : Int := (cm.map Prod.snd).sum

/-- `lineTotal`: the sum of `v.Sum()` over the line-changes map. -/
def lineTotal (lm : List (Line × LineChanges)) : Int :=
  (lm.map (fun p => p.2.Sum)).sum

/-- Go map indexing `commitMap[k]` with the zero value for missing keys. -/
def lookupCommits (cm : List (Line × Int)) (k : Line) : Int :=
  (mapLookup cm k).getD 0

/-- One row of the summary report: the per-author data both the tabular
and the CSV summary emit, with the `float64` ratio arithmetic idealised
over `ℚ`. -/
structure Row where
  author : Line
  commits : Int
  additions : Int
  deletions : Int
  lineRatio : ℚ
  commitRatio : ℚ
  granularity : ℚ
deriving DecidableEq, Repr

/-- The rows of the summary report, in the order of the line-changes map:
both summary commands iterate the line-changes map only, and read the
commit map through zero-defaulting indexing. -/
def summaryRows (cm : List (Line × Int)) (lm : List (Line × LineChanges)) : List Row :=
  lm.map fun p =>
    { author := p.1
      commits := lookupCommits cm p.1
      additions := p.2.Additions
      deletions := p.2.Deletions
      lineRatio := (p.2.Sum : ℚ) / (lineTotal lm : ℚ)
      commitRatio := (lookupCommits cm p.1 : ℚ) / (commitTotal cm : ℚ)
      granularity := 1 / ((p.2.Sum : ℚ) / (lookupCommits cm p.1 : ℚ)) }

/-! ### CSV rendering -/

/-- Fuel-driven decimal digit rendering; fuel `n + 1` is an upper bound on
the number of digits of `n`. -/
def natStrAux : Nat → Nat → Line → Line
  | 0, _, acc => acc
  | fuel + 1, n, acc =>
    if n < 10 then Char.ofNat (48 + n) :: acc
    else natStrAux fuel (n / 10) (Char.ofNat (48 + n % 10) :: acc)

/-- Decimal rendering of a natural number. -/
def natStr (n : Nat) : Line := natStrAux (n + 1) n []

/-- Decimal rendering of an integer, as `fmt.Printf("%v", i)` produces. -/
def intStr (i : Int) : Line :=
  if i < 0 then '-' :: natStr i.natAbs else natStr i.natAbs

/-- Zero-padding to three digits for the fractional part of `fmt3`. -/
def pad3 (n : Nat) : Line :=
  if n < 10 then '0' :: '0' :: natStr n
  else if n < 100 then '0' :: natStr n
  else natStr n

/-- Fixed-point three-decimal rendering, the model of `%.3f` (rounding
half up where Go rounds the nearest binary `float64` half to even). -/
def fmt3 (q : ℚ) : Line :=
  (if (q * 1000 + 1 / 2).floor < 0 then ['-'] else []) ++
    natStr ((q * 1000 + 1 / 2).floor.natAbs / 1000) ++
    '.' :: pad3 ((q * 1000 + 1 / 2).floor.natAbs % 1000)

/-- A string field wrapped in double quotes, as `\"%s\"` renders it. -/
def quoteField (s : Line) : Line := '"' :: (s ++ ['"'])

/-- One CSV record of `CsvContributionSummaryCmd`, following its
`fmt.Printf` format string
`"\"%s\",\"%s\",%v,%v,%v,%.3f,%.3f,%.3f\n"` verbatim. -/
def csvLine (repo : Line) (r : Row) : Line :=
  quoteField repo ++ ',' ::
    (quoteField r.author ++ ',' ::
      (intStr r.commits ++ ',' ::
        (intStr r.additions ++ ',' ::
          (intStr r.deletions ++ ',' ::
            (fmt3 r.lineRatio ++ ',' ::
              (fmt3 r.commitRatio ++ ',' :: fmt3 r.granularity))))))

/-- The full output of the CSV summary command: one record per author of
the line-changes map, and nothing else (no header row). -/
def csvSummaryLines (repo : Line) (cm : List (Line × Int))
    (lm : List (Line × LineChanges)) : List Line :=
  (summaryRows cm lm).map (csvLine repo)

/-- Split a rendered line at every comma; the quote-unaware field count
of a CSV record. -/
def splitComma : Line → List Line
  | [] => [[]]
  | c :: cs =>
    if c = ',' then [] :: splitComma cs
    else
      match splitComma cs with
      | [] => [[c]]
      | f :: fs => (c :: f) :: fs

/-! ### Derived predicates used by the claim statements -/

/-- The fields of a line as the parsers see them: fields of the trimmed
line. -/
def lineFields (l : Line) : List Line := fieldsCh (trimCh l)

/-- A well-formed shortlog line: at least two fields, the first of which
parses as an integer. -/
def wfShort (l : Line) : Bool :=
  match lineFields l with
  | [] => false
  | k :: rest => (atoiCh k).isSome && !rest.isEmpty

/-- The author name a shortlog line contributes:
`strings.Join(fields[1:], " ")`. -/
def lineName (l : Line) : Line := joinSp (lineFields l).tail

/-- The commit count a shortlog line contributes. -/
def lineCount (l : Line) : Int := (atoiCh ((lineFields l).headD [])).getD 0

/-- Does the line have at least one field (otherwise `mapAuthorCommits`
panics on `fields[0]`). -/
def shortNonEmptyFields (l : Line) : Bool := !(lineFields l).isEmpty

/-- A shortlog line whose first field is not a valid integer. -/
def shortMalformed (l : Line) : Bool :=
  match lineFields l with
  | [] => false
  | k :: _ => (atoiCh k).isNone

/-- Is the (trimmed) line a change record for `parseLineChanges`:
nonblank and not matching the author-header regexp.  Line classification
is independent of the parser state. -/
def isChangeLineB (l : Line) : Bool :=
  !(trimCh l).isEmpty && !authorStart (trimCh l)

/-- A change record with the two fields `parseLineChanges` indexes, so
its processing cannot panic. -/
def changeSafeB (l : Line) : Bool :=
  !isChangeLineB l || 2 ≤ (lineFields l).length

/-- An author-header line that the quote-stripping cannot panic on: every
line other than a bare `'`. -/
def headerSafeB (l : Line) : Bool := trimCh l ≠ ['\'']

/-- A change record one of whose two parsed fields is neither a number
nor `-`. -/
def changeMalformed (l : Line) : Bool :=
  isChangeLineB l &&
    match lineFields l with
    | f0 :: f1 :: _ =>
      (f0 ≠ ['-'] && (atoiCh f0).isNone) || (f1 ≠ ['-'] && (atoiCh f1).isNone)
    | _ => false

/-- Does the first nonblank line of the text classify as a change record
(the `AWAITING_AUTHOR` precondition-violation scenario). -/
def firstNonBlankIsChange : List Line → Bool
  | [] => false
  | l :: ls =>
    if trimCh l = [] then firstNonBlankIsChange ls else !authorStart (trimCh l)

/-- The total work of all authors in a line-changes map: the sum of
additions plus deletions over its entries. -/
def mapSumLC (m : List (Line × LineChanges)) : Int :=
  (m.map (fun p => p.2.Additions + p.2.Deletions)).sum

/-- The numeric contribution of one change line: the values of its first
two fields, a literal `-` counting as zero. -/
def changeTotal (l : Line) : Int :=
  (((lineFields l).take 2).map (fun f => if f = ['-'] then 0 else (atoiCh f).getD 0)).sum

/-- Characters that can appear in a rendered numeric CSV field. -/
def isNumChar (c : Char) : Bool := ('0' ≤ c && c ≤ '9') || c = '-' || c = '.'

/-! ## Lemmas about the association-list map operations -/

theorem mapLookup_insert_self {α : Type} (m : List (Line × α)) (k : Line) (v : α) :
    mapLookup (mapInsert m k v) k = some v := by
  induction m with
  | nil => simp [mapInsert, mapLookup]
  | cons p m ih =>
    obtain ⟨k', v'⟩ := p
    by_cases h : k' = k <;> simp [mapInsert, mapLookup, h, ih]

theorem mapLookup_insert_ne {α : Type} (m : List (Line × α)) (k a : Line) (v : α)
    (h : k ≠ a) : mapLookup (mapInsert m k v) a = mapLookup m a := by
  induction m with
  | nil => simp [mapInsert, mapLookup, h]
  | cons p m ih =>
    obtain ⟨k', v'⟩ := p
    by_cases hk : k' = k
    · subst hk
      simp [mapInsert, mapLookup, h]
    · by_cases ha : k' = a
      · subst ha
        simp [mapInsert, mapLookup, hk, Ne.symm h]
      · simp [mapInsert, mapLookup, hk, ha, ih]

theorem mapLookup_insert_isSome {α : Type} (m : List (Line × α)) (k a : Line) (v : α)
    (h : (mapLookup m a).isSome = true) :
    (mapLookup (mapInsert m k v) a).isSome = true := by
  by_cases hk : k = a
  · subst hk; simp [mapLookup_insert_self]
  · rwa [mapLookup_insert_ne m k a v hk]

/-! ## C10, C2, C4: branch extractor and commit-aggregator crash behaviour -/

/-- C10: on an input whose first line is whitespace-only, `mapAuthorCommits`
neither skips the line nor returns a parse error: it indexes the empty
field list out of bounds, a panic — while `parseLineChanges` on a text
with the same whitespace-only line skips it and succeeds. -/
theorem blankLineCrashesCommitAggregator :
    mapAuthorCommits "   \n5 A\n" = .crash ∧
      parseLineChanges "   \nAlice\n" = .ok [("Alice".toList, ⟨0, 0⟩)] := by
  exact ⟨by decide, by decide⟩

/-- C2 counterexample: on a branch listing in which no line matches the
asterisk-marker pattern, `extractCheckedOutBranch` does not fail: it
returns the zero-valued branch (the empty string) with a nil error. -/
theorem noMarkerNoFailure_cex :
    extractCheckedOutBranch "  foo\n  bar\n" = .ok [] ∧
      (GoResult.ok ([] : Line) ≠ .err) ∧
      ∀ l ∈ toLines "  foo\n  bar\n".toList, l.head? ≠ some '*' := by
  exact ⟨by decide, by decide, by decide⟩

theorem extractCheckedOutBranchGo_none (L : List Line)
    (h : ∀ l ∈ L, l.head? ≠ some '*') : extractCheckedOutBranchGo L = .ok [] := by
  induction L with
  | nil => rfl
  | cons l ls ih =>
    simp only [extractCheckedOutBranchGo]
    rw [if_neg (h l (by simp))]
    exact ih fun x hx => h x (by simp [hx])

/-- C2 amended: for every branch-listing text in which no line matches
the asterisk-marker pattern, `extractCheckedOutBranch` returns the empty
string together with a nil error (no failure). -/
theorem noMarkerReturnsEmpty (s : String)
    (h : ∀ l ∈ toLines s.toList, l.head? ≠ some '*') :
    extractCheckedOutBranch s = .ok [] :=
  extractCheckedOutBranchGo_none _ h

theorem noMarkerReturnsEmpty_witness :
    extractCheckedOutBranch "  develop\n  main\n" = .ok [] :=
  noMarkerReturnsEmpty _ (by decide)

theorem extractCheckedOutBranchGo_found (pre : List Line) (l : Line) (post : List Line)
    (name : Line) (rest : List Line)
    (hpre : ∀ l' ∈ pre, l'.head? ≠ some '*')
    (hstar : l.head? = some '*')
    (hfields : fieldsCh l = ['*'] :: name :: rest) :
    extractCheckedOutBranchGo (pre ++ l :: post) = .ok name := by
  induction pre with
  | nil =>
    simp only [List.nil_append, extractCheckedOutBranchGo]
    rw [if_pos hstar, hfields]
  | cons p pre ih =>
    simp only [List.cons_append, extractCheckedOutBranchGo]
    rw [if_neg (hpre p (by simp))]
    exact ih fun x hx => hpre x (by simp [hx])

/-- C4: when exactly one line of the listing is marked — no earlier line
starts with `*`, and on the marked line the marker stands alone followed
by whitespace and the branch-name token — the extractor returns that
token (`strings.Fields(line)[1]`). -/
theorem markedLineBranch (s : String) (pre post : List Line) (l name : Line)
    (rest : List Line)
    (hsplit : toLines s.toList = pre ++ l :: post)
    (hpre : ∀ l' ∈ pre, l'.head? ≠ some '*')
    (hstar : l.head? = some '*')
    (hfields : fieldsCh l = ['*'] :: name :: rest) :
    extractCheckedOutBranch s = .ok name := by
  unfold extractCheckedOutBranch
  rw [hsplit]
  exact extractCheckedOutBranchGo_found pre l post name rest hpre hstar hfields

theorem markedLineBranch_witness :
    extractCheckedOutBranch "  asdasd\n* main\n  bottombranch\n" = .ok "main".toList :=
  markedLineBranch _ ["  asdasd".toList] ["  bottombranch".toList] "* main".toList
    "main".toList [] (by decide) (by decide) (by decide) (by decide)

/-! ## C1: which authors appear in the report -/

/-- C1 counterexample: with commit map `{"A" ↦ 1}` and an empty
line-changes map the summary report and the CSV summary have no rows at
all, although `A` is in the union of the two author sets. -/
theorem unionAuthors_cex :
    summaryRows [(['A'], 1)] [] = [] ∧
      csvSummaryLines ['r'] [(['A'], 1)] [] = [] ∧
      ['A'] ∈ ([(['A'], 1)] : List (Line × Int)).map Prod.fst := by
  exact ⟨by decide, by decide, by decide⟩

/-- C1 amended: the authors appearing in the summary report (and the CSV
summary, which emits one record per report row) are exactly the authors
of the line-changes map; an author present only in the commit-count map
gets no row, and an author present only in the line-changes map gets a
row whose commit count is the zero default. -/
theorem reportAuthorsAreLineMapKeys (cm : List (Line × Int))
    (lm : List (Line × LineChanges)) :
    (∀ a, a ∈ (summaryRows cm lm).map Row.author ↔ a ∈ lm.map Prod.fst) ∧
      (∀ r ∈ summaryRows cm lm, mapLookup cm r.author = none → r.commits = 0) ∧
      ∀ repo, (csvSummaryLines repo cm lm).length = lm.length := by
  refine ⟨?_, ?_, ?_⟩
  · intro a
    have h : (summaryRows cm lm).map Row.author = lm.map Prod.fst := by
      simp [summaryRows, List.map_map]
    rw [h]
  · intro r hr hnone
    simp only [summaryRows, List.mem_map] at hr
    obtain ⟨p, hp, rfl⟩ := hr
    simp [lookupCommits, hnone]
  · intro repo
    simp [csvSummaryLines, summaryRows]

theorem reportAuthorsAreLineMapKeys_witness :
    ['B'] ∈ (summaryRows [(['A'], 1)] [(['B'], ⟨2, 3⟩)]).map Row.author :=
  ((reportAuthorsAreLineMapKeys [(['A'], 1)] [(['B'], ⟨2, 3⟩)]).1 ['B']).mpr (by decide)

/-! ## C3: a change record before any author header -/

theorem changeStep_ok (line ca : Line) (m m' : List (Line × LineChanges))
    (h : changeStep line ca m = .ok m') : ∃ v, m' = mapInsert m ca v := by
  unfold changeStep at h
  split at h
  · cases h
  · split at h <;> cases h
  · split at h
    · cases h
    · split at h
      · cases h
      · injection h with h'
        exact ⟨_, h'.symm⟩

theorem parseGo_lookup_isSome (L : List Line) (ca : Line)
    (m0 m : List (Line × LineChanges)) (a : Line)
    (h : parseLineChangesGo L ca m0 = .ok m)
    (ha : (mapLookup m0 a).isSome = true) :
    (mapLookup m a).isSome = true := by
  induction L generalizing ca m0 with
  | nil =>
    simp only [parseLineChangesGo] at h
    injection h with h'
    rwa [← h']
  | cons raw ls ih =>
    simp only [parseLineChangesGo] at h
    split at h
    · exact ih _ _ h ha
    · split at h
      · cases hsq : stripQuotes (trimCh raw) with
        | ok a' =>
          rw [hsq] at h
          refine ih _ _ h ?_
          unfold registerAuthor
          split
          · exact mapLookup_insert_isSome m0 a' a _ ha
          · exact ha
        | err => rw [hsq] at h; cases h
        | crash => rw [hsq] at h; cases h
      · cases hcs : changeStep (trimCh raw) ca m0 with
        | ok m' =>
          rw [hcs] at h
          obtain ⟨v, rfl⟩ := changeStep_ok _ _ _ _ hcs
          exact ih _ _ h (mapLookup_insert_isSome m0 ca a v ha)
        | err => rw [hcs] at h; cases h
        | crash => rw [hcs] at h; cases h

theorem parseGo_first_change (L : List Line) (m0 m : List (Line × LineChanges))
    (h1 : firstNonBlankIsChange L = true)
    (h2 : parseLineChangesGo L [] m0 = .ok m) :
    (mapLookup m []).isSome = true := by
  induction L generalizing m0 with
  | nil => cases h1
  | cons raw ls ih =>
    simp only [firstNonBlankIsChange] at h1
    simp only [parseLineChangesGo] at h2
    split at h2
    · rename_i hblank
      rw [if_pos hblank] at h1
      exact ih _ h1 h2
    · rename_i hblank
      rw [if_neg hblank] at h1
      split at h2
      · rename_i hauth
        simp [hauth] at h1
      · cases hcs : changeStep (trimCh raw) [] m0 with
        | ok m' =>
          rw [hcs] at h2
          obtain ⟨v, rfl⟩ := changeStep_ok _ _ _ _ hcs
          exact parseGo_lookup_isSome _ _ _ _ _ h2
            (by rw [mapLookup_insert_self]; rfl)
        | err => rw [hcs] at h2; cases h2
        | crash => rw [hcs] at h2; cases h2

/-- C3 counterexample: on the text `"1\t2\tf"`, whose first (and only)
line is a change record and no author header has been seen, the
aggregation does not fail: it silently accumulates the counts under the
empty-string author. -/
theorem changeBeforeHeader_cex :
    parseLineChanges "1\t2\tf" = .ok [([], ⟨1, 2⟩)] ∧
      (GoResult.ok [(([] : Line), (⟨1, 2⟩ : LineChanges))] ≠ .err) ∧
      (GoResult.ok [(([] : Line), (⟨1, 2⟩ : LineChanges))] ≠ .crash) := by
  exact ⟨by decide, by decide, by decide⟩

/-- C3 amended: a change line appearing before any author header (state
`AWAITING_AUTHOR`) is not rejected and not dropped: whenever the
aggregation of such a text succeeds, the change has been accumulated
under the empty-string author, which is a key of the resulting map. -/
theorem changeBeforeHeaderAccumulates (s : String) (m : List (Line × LineChanges))
    (h1 : firstNonBlankIsChange (toLines s.toList) = true)
    (h2 : parseLineChanges s = .ok m) :
    (mapLookup m []).isSome = true :=
  parseGo_first_change _ _ _ h1 h2

theorem changeBeforeHeaderAccumulates_witness :
    (mapLookup [(([] : Line), (⟨5, 6⟩ : LineChanges)),
      ("Alice".toList, (⟨1, 1⟩ : LineChanges))] []).isSome = true :=
  changeBeforeHeaderAccumulates "5\t6\tf\nAlice\n1\t1\tg\n" _ (by decide) (by decide)

/-! ## C7: the commit aggregator on well-formed shortlog text -/

theorem mapAuthorCommitsGo_step_crash (l : Line) (ls : List Line) (m0 : List (Line × Int))
    (hf : fieldsCh (trimCh l) = []) : mapAuthorCommitsGo (l :: ls) m0 = .crash := by
  simp only [mapAuthorCommitsGo, hf]

theorem mapAuthorCommitsGo_step_err (l : Line) (ls : List Line) (m0 : List (Line × Int))
    (k : Line) (rest : List Line)
    (hf : fieldsCh (trimCh l) = k :: rest) (hat : atoiCh k = none) :
    mapAuthorCommitsGo (l :: ls) m0 = .err := by
  simp only [mapAuthorCommitsGo, hf, hat]

theorem mapAuthorCommitsGo_step_ok (l : Line) (ls : List Line) (m0 : List (Line × Int))
    (k : Line) (rest : List Line) (n : Int)
    (hf : fieldsCh (trimCh l) = k :: rest) (hat : atoiCh k = some n) :
    mapAuthorCommitsGo (l :: ls) m0 = mapAuthorCommitsGo ls (mapInsert m0 (joinSp rest) n) := by
  simp only [mapAuthorCommitsGo, hf, hat]

theorem mapAuthorCommitsGo_ok (L : List Line) (m0 : List (Line × Int))
    (h : ∀ l ∈ L, wfShort l = true) : ∃ m, mapAuthorCommitsGo L m0 = .ok m := by
  induction L generalizing m0 with
  | nil => exact ⟨m0, rfl⟩
  | cons l ls ih =>
    have hl := h l (by simp)
    rcases hf : fieldsCh (trimCh l) with _ | ⟨k, rest⟩
    · simp [wfShort, lineFields, hf] at hl
    · rcases hat : atoiCh k with _ | n
      · simp [wfShort, lineFields, hf, hat] at hl
      · rw [mapAuthorCommitsGo_step_ok l ls m0 k rest n hf hat]
        exact ih _ fun x hx => h x (by simp [hx])

theorem mapAuthorCommitsGo_frame (L : List Line) (m0 m : List (Line × Int)) (a : Line)
    (h : mapAuthorCommitsGo L m0 = .ok m) (ha : ∀ l ∈ L, lineName l ≠ a) :
    mapLookup m a = mapLookup m0 a := by
  induction L generalizing m0 with
  | nil =>
    injection h with h'
    rw [← h']
  | cons l ls ih =>
    rcases hf : fieldsCh (trimCh l) with _ | ⟨k, rest⟩
    · rw [mapAuthorCommitsGo_step_crash l ls m0 hf] at h
      cases h
    · rcases hat : atoiCh k with _ | n
      · rw [mapAuthorCommitsGo_step_err l ls m0 k rest hf hat] at h
        cases h
      · rw [mapAuthorCommitsGo_step_ok l ls m0 k rest n hf hat] at h
        rw [ih _ h fun x hx => ha x (by simp [hx])]
        apply mapLookup_insert_ne
        have hname : lineName l = joinSp rest := by simp [lineName, lineFields, hf]
        exact hname ▸ ha l (by simp)

theorem mapAuthorCommitsGo_last (L1 : List Line) (l : Line) (L2 : List Line)
    (m0 m : List (Line × Int))
    (h : mapAuthorCommitsGo (L1 ++ l :: L2) m0 = .ok m)
    (hlast : ∀ l' ∈ L2, lineName l' ≠ lineName l) :
    mapLookup m (lineName l) = some (lineCount l) := by
  induction L1 generalizing m0 with
  | nil =>
    rw [List.nil_append] at h
    rcases hf : fieldsCh (trimCh l) with _ | ⟨k, rest⟩
    · rw [mapAuthorCommitsGo_step_crash l L2 m0 hf] at h
      cases h
    · rcases hat : atoiCh k with _ | n
      · rw [mapAuthorCommitsGo_step_err l L2 m0 k rest hf hat] at h
        cases h
      · rw [mapAuthorCommitsGo_step_ok l L2 m0 k rest n hf hat] at h
        have hname : lineName l = joinSp rest := by simp [lineName, lineFields, hf]
        have hcount : lineCount l = n := by simp [lineCount, lineFields, hf, hat]
        rw [mapAuthorCommitsGo_frame _ _ _ _ h hlast, hname, mapLookup_insert_self, hcount]
  | cons p L1 ih =>
    rw [List.cons_append] at h
    rcases hf : fieldsCh (trimCh p) with _ | ⟨k, rest⟩
    · rw [mapAuthorCommitsGo_step_crash p (L1 ++ l :: L2) m0 hf] at h
      cases h
    · rcases hat : atoiCh k with _ | n
      · rw [mapAuthorCommitsGo_step_err p (L1 ++ l :: L2) m0 k rest hf hat] at h
        cases h
      · rw [mapAuthorCommitsGo_step_ok p (L1 ++ l :: L2) m0 k rest n hf hat] at h
        exact ih _ h

/-- C7: on shortlog text whose every line is `<ws><int><ws><name...>`,
`mapAuthorCommits` succeeds, and each author name (the fields after the
count joined by single spaces, which trims surrounding whitespace and
collapses internal runs) maps to the count of its line; when a name
recurs, the later line overwrites the earlier, so every lookup returns
the count of the last line carrying that name. -/
theorem shortlogMap (s : String)
    (h : ∀ l ∈ toLines s.toList, wfShort l = true) :
    (∃ m, mapAuthorCommits s = .ok m) ∧
      ∀ m, mapAuthorCommits s = .ok m →
        ∀ L1 l L2, toLines s.toList = L1 ++ l :: L2 →
          (∀ l' ∈ L2, lineName l' ≠ lineName l) →
          mapLookup m (lineName l) = some (lineCount l) := by
  constructor
  · exact mapAuthorCommitsGo_ok _ _ h
  · intro m hm L1 l L2 hsplit hlast
    unfold mapAuthorCommits at hm
    rw [hsplit] at hm
    exact mapAuthorCommitsGo_last L1 l L2 _ _ hm hlast

theorem shortlogMap_witness :
    mapLookup [("Author One".toList, 42), ("Author Two".toList, 3)]
      (lineName "    42  Author One".toList) =
      some (lineCount "    42  Author One".toList) :=
  (shortlogMap "    42  Author One\n     3  Author Two\n" (by decide)).2
    _ (by decide) [] "    42  Author One".toList ["     3  Author Two".toList]
    (by decide) (by decide)

/-! ## C5: the line-change sum invariant -/

theorem mapSumLC_insert (m : List (Line × LineChanges)) (k : Line) (v : LineChanges) :
    mapSumLC (mapInsert m k v) +
        (((mapLookup m k).getD ⟨0, 0⟩).Additions + ((mapLookup m k).getD ⟨0, 0⟩).Deletions) =
      mapSumLC m + (v.Additions + v.Deletions) := by
  induction m with
  | nil => simp [mapSumLC, mapInsert, mapLookup]
  | cons p m ih =>
    obtain ⟨k', v'⟩ := p
    by_cases hk : k' = k
    · subst hk
      simp [mapSumLC, mapInsert, mapLookup]
      ring
    · simp only [mapSumLC, mapInsert, if_neg hk, mapLookup, List.map_cons, List.sum_cons] at ih ⊢
      omega

theorem registerAuthor_sum (m : List (Line × LineChanges)) (a : Line) :
    mapSumLC (registerAuthor m a) = mapSumLC m := by
  unfold registerAuthor
  split
  · rename_i hnone
    have hins := mapSumLC_insert m a ⟨0, 0⟩
    rw [Option.isNone_iff_eq_none] at hnone
    rw [hnone] at hins
    simpa using hins
  · rfl

theorem changeStep_sum (line ca : Line) (m m' : List (Line × LineChanges))
    (h : changeStep line ca m = .ok m') :
    mapSumLC m' = mapSumLC m +
      (((fieldsCh line).take 2).map (fun f => if f = ['-'] then 0 else (atoiCh f).getD 0)).sum := by
  unfold changeStep at h
  split at h
  · cases h
  · split at h <;> cases h
  · rename_i f0 f1 tail hf
    split at h
    · cases h
    · rename_i adds hadds
      split at h
      · cases h
      · rename_i dels hdels
        injection h with h'
        subst h'
        have hins := mapSumLC_insert m ca
          ⟨((mapLookup m ca).getD ⟨0, 0⟩).Additions + adds,
           ((mapLookup m ca).getD ⟨0, 0⟩).Deletions + dels⟩
        have hv0 : (if f0 = ['-'] then (0 : Int) else (atoiCh f0).getD 0) = adds := by
          by_cases hf0 : f0 = ['-']
          · rw [if_pos hf0] at hadds ⊢
            injection hadds
          · rw [if_neg hf0] at hadds ⊢
            rw [hadds]
            rfl
        have hv1 : (if f1 = ['-'] then (0 : Int) else (atoiCh f1).getD 0) = dels := by
          by_cases hf1 : f1 = ['-']
          · rw [if_pos hf1] at hdels ⊢
            injection hdels
          · rw [if_neg hf1] at hdels ⊢
            rw [hdels]
            rfl
        have htake : (f0 :: f1 :: tail).take 2 = [f0, f1] := rfl
        dsimp only at hins
        rw [hf, htake]
        simp only [List.map_cons, List.map_nil, List.sum_cons, List.sum_nil, hv0, hv1]
        omega

theorem parseGo_sum (L : List Line) (ca : Line) (m0 m : List (Line × LineChanges))
    (h : parseLineChangesGo L ca m0 = .ok m) :
    mapSumLC m = mapSumLC m0 + ((L.filter isChangeLineB).map changeTotal).sum := by
  induction L generalizing ca m0 with
  | nil =>
    injection h with h'
    simp [← h']
  | cons raw ls ih =>
    simp only [parseLineChangesGo] at h
    split at h
    · rename_i hblank
      have hc : isChangeLineB raw = false := by simp [isChangeLineB, hblank]
      rw [List.filter_cons, hc]
      simp only [Bool.false_eq_true, if_false]
      exact ih _ _ h
    · rename_i hblank
      split at h
      · rename_i hauth
        have hc : isChangeLineB raw = false := by simp [isChangeLineB, hauth]
        rw [List.filter_cons, hc]
        simp only [Bool.false_eq_true, if_false]
        cases hsq : stripQuotes (trimCh raw) with
        | ok a' =>
          rw [hsq] at h
          rw [ih _ _ h, registerAuthor_sum]
        | err => rw [hsq] at h; cases h
        | crash => rw [hsq] at h; cases h
      · rename_i hauth
        have hc : isChangeLineB raw = true := by
          simp [isChangeLineB, hblank, hauth]
        rw [List.filter_cons, hc]
        simp only [if_true]
        cases hcs : changeStep (trimCh raw) ca m0 with
        | ok m' =>
          rw [hcs] at h
          rw [ih _ _ h, changeStep_sum _ _ _ _ hcs]
          simp only [changeTotal, lineFields, List.map_cons, List.sum_cons]
          omega
        | err => rw [hcs] at h; cases h
        | crash => rw [hcs] at h; cases h

/-- C5: whenever `parseLineChanges` succeeds — including texts in which an
author's header recurs in several blocks, whose accumulator is merged
across the blocks because initialisation is idempotent — the sum over all
authors of additions plus deletions equals the total of the numeric
addition/deletion tokens over all change lines, a literal `-` counting as
zero. -/
theorem lineChangeSum (s : String) (m : List (Line × LineChanges))
    (h : parseLineChanges s = .ok m) :
    mapSumLC m = (((toLines s.toList).filter isChangeLineB).map changeTotal).sum := by
  have hs := parseGo_sum _ _ _ _ h
  simpa [mapSumLC] using hs

theorem lineChangeSum_witness :
    mapSumLC [("Alice".toList, (⟨1, 6⟩ : LineChanges)), ("Bob".toList, (⟨3, 0⟩ : LineChanges))] =
      (((toLines "'Alice'\n1\t2\tf.go\nBob\n3\t-\tg.go\nAlice\n-\t4\th.go\n".toList).filter
          isChangeLineB).map changeTotal).sum :=
  lineChangeSum _ _ (by decide)

/-! ## C6: malformed numeric fields abort the aggregation -/

theorem mapAuthorCommitsGo_err (L : List Line) (m0 : List (Line × Int))
    (h1 : ∀ l ∈ L, shortNonEmptyFields l = true)
    (h2 : ∃ l ∈ L, shortMalformed l = true) :
    mapAuthorCommitsGo L m0 = .err := by
  induction L generalizing m0 with
  | nil => simp at h2
  | cons l ls ih =>
    rcases hf : fieldsCh (trimCh l) with _ | ⟨k, rest⟩
    · have hne := h1 l (by simp)
      simp [shortNonEmptyFields, lineFields, hf] at hne
    · rcases hat : atoiCh k with _ | n
      · exact mapAuthorCommitsGo_step_err l ls m0 k rest hf hat
      · rw [mapAuthorCommitsGo_step_ok l ls m0 k rest n hf hat]
        apply ih _ fun x hx => h1 x (by simp [hx])
        rcases h2 with ⟨w, hw, hmal⟩
        rcases List.mem_cons.mp hw with rfl | hwls
        · simp [shortMalformed, lineFields, hf, hat] at hmal
        · exact ⟨w, hwls, hmal⟩

theorem stripQuotes_ne_err (l : Line) : stripQuotes l ≠ .err := by
  unfold stripQuotes
  split
  · split <;> simp
  · simp

theorem stripQuotes_crash (l : Line) (h : stripQuotes l = .crash) : l = ['\''] := by
  unfold stripQuotes at h
  split at h
  · rename_i hcond
    split at h
    · rename_i hdrop
      cases l with
      | nil => simp at hcond
      | cons c cs =>
        cases cs with
        | nil =>
          simp only [List.head?_cons, List.getLast?_singleton, Option.some.injEq,
            Bool.and_eq_true, decide_eq_true_eq] at hcond
          simp [hcond.1]
        | cons d ds =>
          have hlen := congrArg List.length hdrop
          simp [List.length_dropLast] at hlen
    · cases h
  · cases h

theorem changeStep_malformed_err (raw ca : Line) (m : List (Line × LineChanges))
    (hcm : changeMalformed raw = true) : changeStep (trimCh raw) ca m = .err := by
  unfold changeMalformed at hcm
  rcases hf : lineFields raw with _ | ⟨f0, fs⟩
  · rw [hf] at hcm
    simp at hcm
  · rcases fs with _ | ⟨f1, rest⟩
    · rw [hf] at hcm
      simp at hcm
    · rw [hf] at hcm
      simp only [Bool.and_eq_true, Bool.or_eq_true, bne_iff_ne, ne_eq,
        Option.isNone_iff_eq_none, decide_eq_true_eq] at hcm
      simp only [lineFields] at hf
      rcases hcm.2 with ⟨hne0, hnone0⟩ | ⟨hne1, hnone1⟩
      · simp only [changeStep, hf, if_neg hne0, hnone0]
      · by_cases hf0 : f0 = ['-']
        · simp only [changeStep, hf, if_pos hf0, if_neg hne1, hnone1]
        · cases hat0 : atoiCh f0 with
          | none => simp only [changeStep, hf, if_neg hf0, hat0]
          | some a => simp only [changeStep, hf, if_neg hf0, hat0, if_neg hne1, hnone1]

theorem changeStep_no_crash (line ca : Line) (m : List (Line × LineChanges))
    (hlen : 2 ≤ (fieldsCh line).length) : changeStep line ca m ≠ .crash := by
  unfold changeStep
  split
  · rename_i hf
    rw [hf] at hlen
    simp at hlen
  · rename_i f hf
    rw [hf] at hlen
    simp at hlen
  · split
    · simp
    · split <;> simp

theorem parseGo_err (L : List Line) (ca : Line) (m0 : List (Line × LineChanges))
    (h1 : ∀ l ∈ L, changeSafeB l = true ∧ headerSafeB l = true)
    (h2 : ∃ l ∈ L, changeMalformed l = true) :
    parseLineChangesGo L ca m0 = .err := by
  induction L generalizing ca m0 with
  | nil => simp at h2
  | cons raw ls ih =>
    simp only [parseLineChangesGo]
    rcases h2 with ⟨w, hw, hmal⟩
    by_cases hblank : trimCh raw = []
    · rw [if_pos hblank]
      apply ih _ _ fun x hx => h1 x (by simp [hx])
      rcases List.mem_cons.mp hw with rfl | hwls
      · simp [changeMalformed, isChangeLineB, hblank] at hmal
      · exact ⟨w, hwls, hmal⟩
    · rw [if_neg hblank]
      by_cases hauth : authorStart (trimCh raw) = true
      · rw [if_pos hauth]
        rcases List.mem_cons.mp hw with rfl | hwls
        · simp [changeMalformed, isChangeLineB, hauth] at hmal
        · cases hsq : stripQuotes (trimCh raw) with
          | ok a' =>
            exact ih _ _ (fun x hx => h1 x (by simp [hx])) ⟨w, hwls, hmal⟩
          | err => exact absurd hsq (stripQuotes_ne_err _)
          | crash =>
            have hbad := stripQuotes_crash _ hsq
            have hsafe := (h1 raw (by simp)).2
            simp [headerSafeB, hbad] at hsafe
      · rw [if_neg hauth]
        rcases List.mem_cons.mp hw with rfl | hwls
        · rw [changeStep_malformed_err w ca m0 hmal]
        · cases hcs : changeStep (trimCh raw) ca m0 with
          | ok m' =>
            exact ih _ _ (fun x hx => h1 x (by simp [hx])) ⟨w, hwls, hmal⟩
          | err => rfl
          | crash =>
            exfalso
            have hcl : isChangeLineB raw = true := by
              simp [isChangeLineB, hblank, hauth]
            have hcsafe := (h1 raw (by simp)).1
            simp only [changeSafeB, hcl, Bool.not_true, Bool.false_or,
              decide_eq_true_eq, lineFields] at hcsafe
            exact changeStep_no_crash (trimCh raw) ca m0 hcsafe hcs

/-- C6 counterexample: the text `"\nxx 3"` contains a shortlog line whose
first field is not a valid integer, yet `mapAuthorCommits` does not
return an error with no partial map — it panics on the preceding blank
line before ever reaching the malformed field. -/
theorem malformedField_cex :
    (∃ l ∈ toLines "\nxx 3".toList, shortMalformed l = true) ∧
      mapAuthorCommits "\nxx 3" = .crash ∧
      (GoResult.crash ≠ (GoResult.err : GoResult (List (Line × Int)))) := by
  exact ⟨by decide, by decide, by decide⟩

/-- C6 amended: on inputs whose lines cannot make the aggregators panic —
every shortlog line has at least one field; every numstat change record
has the two fields the parser indexes and no header line is a bare
apostrophe — a malformed numeric field (a shortlog first field that is
not a valid integer, or a change-record first or second field that is
neither a number nor `-`) makes the corresponding aggregator return an
error, with no partial map. -/
theorem malformedFieldAborts :
    (∀ s : String, (∀ l ∈ toLines s.toList, shortNonEmptyFields l = true) →
        (∃ l ∈ toLines s.toList, shortMalformed l = true) →
        mapAuthorCommits s = .err) ∧
      ∀ s : String, (∀ l ∈ toLines s.toList, changeSafeB l = true ∧ headerSafeB l = true) →
        (∃ l ∈ toLines s.toList, changeMalformed l = true) →
        parseLineChanges s = .err := by
  constructor
  · intro s h1 h2
    exact mapAuthorCommitsGo_err _ _ h1 h2
  · intro s h1 h2
    exact parseGo_err _ _ _ h1 h2

theorem malformedFieldAborts_witness :
    mapAuthorCommits "5 A\nxx 3\n" = .err ∧
      parseLineChanges "Alice\n1\tx\tf.go\n" = .err :=
  ⟨malformedFieldAborts.1 _ (by decide) (by decide),
   malformedFieldAborts.2 _ (by decide) (by decide)⟩

/-! ## C8: the report ratios sum to one -/

theorem sum_lookup_eq_sum (cm : List (Line × Int)) (hnc : (cm.map Prod.fst).Nodup) :
    ((cm.map Prod.fst).map (fun k => lookupCommits cm k)).sum = (cm.map Prod.snd).sum := by
  induction cm with
  | nil => rfl
  | cons p cm ih =>
    obtain ⟨k, v⟩ := p
    rw [List.map_cons, List.map_cons, List.map_cons, List.sum_cons, List.sum_cons]
    rw [List.map_cons, List.nodup_cons] at hnc
    obtain ⟨hk, hnd⟩ := hnc
    have h1 : lookupCommits ((k, v) :: cm) k = v := by simp [lookupCommits, mapLookup]
    have h2 : (cm.map Prod.fst).map (fun a => lookupCommits ((k, v) :: cm) a) =
        (cm.map Prod.fst).map (fun a => lookupCommits cm a) := by
      refine List.map_congr_left fun a ha => ?_
      have hak : ¬k = a := fun hka => hk (hka ▸ ha)
      simp [lookupCommits, mapLookup, hak]
    rw [h1, h2, ih hnd]

/-- C8: when the commit map and the line-changes map have exactly the
same author key set (a nodup-keyed commit map whose keys are a
permutation of the line-changes keys) and both totals are nonzero, the
line ratios of the report rows sum to exactly 1 and so do the commit
ratios, stated over exact rationals. -/
theorem ratioSumsToOne (cm : List (Line × Int)) (lm : List (Line × LineChanges))
    (hnc : (cm.map Prod.fst).Nodup)
    (hperm : List.Perm (lm.map Prod.fst) (cm.map Prod.fst))
    (hct : commitTotal cm ≠ 0) (hlt : lineTotal lm ≠ 0) :
    ((summaryRows cm lm).map Row.lineRatio).sum = 1 ∧
      ((summaryRows cm lm).map Row.commitRatio).sum = 1 := by
  constructor
  · have h1 : (summaryRows cm lm).map Row.lineRatio =
        lm.map fun p => ((p.2.Sum : ℤ) : ℚ) * (((lineTotal lm : ℤ) : ℚ))⁻¹ := by
      simp only [summaryRows, List.map_map]
      simp [Function.comp, div_eq_mul_inv]
    rw [h1, List.sum_map_mul_right]
    have h2 : (lm.map fun p => ((p.2.Sum : ℤ) : ℚ)).sum = ((lineTotal lm : ℤ) : ℚ) := by
      rw [lineTotal, Int.cast_list_sum, List.map_map]
      rfl
    rw [h2, mul_inv_cancel₀ (by exact_mod_cast hlt)]
  · have h1 : (summaryRows cm lm).map Row.commitRatio =
        lm.map fun p => ((lookupCommits cm p.1 : ℤ) : ℚ) * (((commitTotal cm : ℤ) : ℚ))⁻¹ := by
      simp only [summaryRows, List.map_map]
      simp [Function.comp, div_eq_mul_inv]
    rw [h1, List.sum_map_mul_right]
    have h2 : (lm.map fun p => ((lookupCommits cm p.1 : ℤ) : ℚ)).sum
        = ((commitTotal cm : ℤ) : ℚ) := by
      have e1 : (lm.map fun p => ((lookupCommits cm p.1 : ℤ) : ℚ))
          = (lm.map Prod.fst).map fun k => ((lookupCommits cm k : ℤ) : ℚ) := by
        rw [List.map_map]
        rfl
      rw [e1, (hperm.map fun k => ((lookupCommits cm k : ℤ) : ℚ)).sum_eq]
      have e2 : ((cm.map Prod.fst).map fun k => ((lookupCommits cm k : ℤ) : ℚ))
          = ((cm.map Prod.fst).map fun k => lookupCommits cm k).map (Int.cast : ℤ → ℚ) := by
        simp [List.map_map, Function.comp]
      rw [e2, ← Int.cast_list_sum, sum_lookup_eq_sum cm hnc, commitTotal]
    rw [h2, mul_inv_cancel₀ (by exact_mod_cast hct)]

theorem ratioSumsToOne_witness :
    ((summaryRows [(['A'], 2), (['B'], 3)]
        [(['A'], ⟨1, 2⟩), (['B'], ⟨4, 0⟩)]).map Row.lineRatio).sum = 1 ∧
      ((summaryRows [(['A'], 2), (['B'], 3)]
        [(['A'], ⟨1, 2⟩), (['B'], ⟨4, 0⟩)]).map Row.commitRatio).sum = 1 :=
  ratioSumsToOne _ _ (by decide) (by decide) (by decide) (by decide)

/-! ## C9: shape of the CSV records -/

theorem digitCharNum (n : Nat) (h : n < 10) : isNumChar (Char.ofNat (48 + n)) = true := by
  interval_cases n <;> decide

theorem natStrAux_num (fuel : Nat) : ∀ (n : Nat) (acc : Line),
    (∀ c ∈ acc, isNumChar c = true) → ∀ c ∈ natStrAux fuel n acc, isNumChar c = true := by
  induction fuel with
  | zero =>
    intro n acc hacc c hc
    exact hacc c hc
  | succ f ih =>
    intro n acc hacc c hc
    simp only [natStrAux] at hc
    split at hc
    · rename_i hlt
      rcases List.mem_cons.mp hc with rfl | hmem
      · exact digitCharNum n hlt
      · exact hacc c hmem
    · refine ih (n / 10) _ ?_ c hc
      intro d hd
      rcases List.mem_cons.mp hd with rfl | hmem
      · exact digitCharNum (n % 10) (Nat.mod_lt _ (by omega))
      · exact hacc d hmem

theorem natStr_num (n : Nat) : ∀ c ∈ natStr n, isNumChar c = true :=
  natStrAux_num (n + 1) n [] (by simp)

theorem intStr_num (i : Int) : ∀ c ∈ intStr i, isNumChar c = true := by
  intro c hc
  unfold intStr at hc
  split at hc
  · rcases List.mem_cons.mp hc with rfl | hmem
    · decide
    · exact natStr_num _ c hmem
  · exact natStr_num _ c hc

theorem pad3_num (n : Nat) : ∀ c ∈ pad3 n, isNumChar c = true := by
  intro c hc
  unfold pad3 at hc
  split at hc
  · rcases List.mem_cons.mp hc with rfl | hc2
    · decide
    · rcases List.mem_cons.mp hc2 with rfl | hc3
      · decide
      · exact natStr_num _ c hc3
  · split at hc
    · rcases List.mem_cons.mp hc with rfl | hc2
      · decide
      · exact natStr_num _ c hc2
    · exact natStr_num _ c hc

theorem fmt3_num (q : ℚ) : ∀ c ∈ fmt3 q, isNumChar c = true := by
  intro c hc
  unfold fmt3 at hc
  rcases List.mem_append.mp hc with h1 | h2
  · rcases List.mem_append.mp h1 with h3 | h4
    · split at h3
      · rcases List.mem_singleton.mp h3 with rfl
        decide
      · cases h3
    · exact natStr_num _ c h4
  · rcases List.mem_cons.mp h2 with rfl | h5
    · decide
    · exact pad3_num _ c h5

theorem numChar_ne_comma (c : Char) (h : isNumChar c = true) : ¬c = ',' :=
  fun hc => absurd (hc ▸ h) (by decide)

theorem numChar_ne_quote (c : Char) (h : isNumChar c = true) : ¬c = '"' :=
  fun hc => absurd (hc ▸ h) (by decide)

theorem splitComma_no_comma (xs : Line) (h : ∀ c ∈ xs, ¬c = ',') :
    splitComma xs = [xs] := by
  induction xs with
  | nil => rfl
  | cons c cs ih =>
    simp only [splitComma]
    rw [if_neg (h c (by simp))]
    rw [ih fun d hd => h d (by simp [hd])]

theorem splitComma_append (xs ys : Line) (h : ∀ c ∈ xs, ¬c = ',') :
    splitComma (xs ++ ',' :: ys) = xs :: splitComma ys := by
  induction xs with
  | nil =>
    simp [splitComma]
  | cons c cs ih =>
    simp only [List.cons_append, splitComma, List.append_eq]
    rw [if_neg (h c (by simp))]
    rw [ih fun d hd => h d (by simp [hd])]

theorem quoteField_last (s : Line) : (quoteField s).getLast? = some '"' := by
  show (('"' :: s) ++ ['"']).getLast? = some '"'
  exact List.getLast?_concat _

theorem quoteField_no_comma (s : Line) (h : ∀ c ∈ s, ¬c = ',') :
    ∀ c ∈ quoteField s, ¬c = ',' := by
  intro c hc
  rcases List.mem_cons.mp hc with rfl | hmem
  · decide
  · rcases List.mem_append.mp hmem with h1 | h2
    · exact h c h1
    · rcases List.mem_singleton.mp h2 with rfl
      decide

theorem splitComma_csvLine (repo : Line) (r : Row)
    (hrc : ∀ c ∈ repo, ¬c = ',') (hac : ∀ c ∈ r.author, ¬c = ',') :
    splitComma (csvLine repo r) =
      [quoteField repo, quoteField r.author, intStr r.commits, intStr r.additions,
       intStr r.deletions, fmt3 r.lineRatio, fmt3 r.commitRatio, fmt3 r.granularity] := by
  unfold csvLine
  rw [splitComma_append _ _ (quoteField_no_comma _ hrc)]
  rw [splitComma_append _ _ (quoteField_no_comma _ hac)]
  rw [splitComma_append _ _ fun c hc => numChar_ne_comma c (intStr_num _ c hc)]
  rw [splitComma_append _ _ fun c hc => numChar_ne_comma c (intStr_num _ c hc)]
  rw [splitComma_append _ _ fun c hc => numChar_ne_comma c (intStr_num _ c hc)]
  rw [splitComma_append _ _ fun c hc => numChar_ne_comma c (fmt3_num _ c hc)]
  rw [splitComma_append _ _ fun c hc => numChar_ne_comma c (fmt3_num _ c hc)]
  rw [splitComma_no_comma _ fun c hc => numChar_ne_comma c (fmt3_num _ c hc)]

/-- C9: each record the CSV summary command emits, split at its commas,
has exactly 8 fields in the order repo directory, author, commits,
additions, deletions, line ratio, commit ratio, granularity; the two
string fields are wrapped in double quotes, the six numeric fields
contain no quote, and there is no header row — the output is exactly one
record per author of the line-changes map. -/
theorem csvRecordShape (repo : Line) (cm : List (Line × Int))
    (lm : List (Line × LineChanges))
    (hr : ∀ c ∈ repo, ¬c = ',' ∧ ¬c = '"')
    (ha : ∀ p ∈ lm, ∀ c ∈ p.1, ¬c = ',' ∧ ¬c = '"') :
    (csvSummaryLines repo cm lm).length = lm.length ∧
      ∀ line ∈ csvSummaryLines repo cm lm, ∃ r ∈ summaryRows cm lm,
        splitComma line =
          [quoteField repo, quoteField r.author, intStr r.commits, intStr r.additions,
           intStr r.deletions, fmt3 r.lineRatio, fmt3 r.commitRatio, fmt3 r.granularity] ∧
        (splitComma line).length = 8 ∧
        (quoteField repo).head? = some '"' ∧ (quoteField repo).getLast? = some '"' ∧
        (quoteField r.author).head? = some '"' ∧
        (quoteField r.author).getLast? = some '"' ∧
        ∀ f ∈ [intStr r.commits, intStr r.additions, intStr r.deletions,
            fmt3 r.lineRatio, fmt3 r.commitRatio, fmt3 r.granularity],
          ∀ c ∈ f, ¬c = '"' := by
  constructor
  · simp [csvSummaryLines, summaryRows]
  · intro line hline
    rcases List.mem_map.mp hline with ⟨r, hrmem, rfl⟩
    have hauthor : ∀ c ∈ r.author, ¬c = ',' := by
      rcases List.mem_map.mp hrmem with ⟨p, hp, rfl⟩
      intro c hc
      exact ((ha p hp) c hc).1
    have hsplit := splitComma_csvLine repo r (fun c hc => (hr c hc).1) hauthor
    refine ⟨r, hrmem, hsplit, ?_, rfl, quoteField_last _, rfl, quoteField_last _, ?_⟩
    · rw [hsplit]
      rfl
    · intro f hf c hc
      simp only [List.mem_cons, List.not_mem_nil, or_false] at hf
      rcases hf with rfl | rfl | rfl | rfl | rfl | rfl
      · exact numChar_ne_quote c (intStr_num _ c hc)
      · exact numChar_ne_quote c (intStr_num _ c hc)
      · exact numChar_ne_quote c (intStr_num _ c hc)
      · exact numChar_ne_quote c (fmt3_num _ c hc)
      · exact numChar_ne_quote c (fmt3_num _ c hc)
      · exact numChar_ne_quote c (fmt3_num _ c hc)

theorem csvRecordShape_witness :
    (csvSummaryLines "repo".toList [("A".toList, 2)] [("A".toList, ⟨1, 2⟩)]).length = 1 :=
  (csvRecordShape "repo".toList [("A".toList, 2)] [("A".toList, ⟨1, 2⟩)]
    (by decide) (by decide)).1

end Gitcontrib
